import Mathlib

/-!
# Verification of the Transformer-XL (Chinese) preprocessing and model core

Shallow embedding of the pure computational content of
`tf/data_utils_chinese.py` and `tf/model.py`:

* the bucket planner's nearest-to-eight rounding (`_nearest_to_eight`),
* the permutation encoder's slot assignment (`_add_perm_feature`) and the
  `head_labels` rewriting inside `create_ordered_tfrecords`,
* the configuration assert of `create_ordered_tfrecords`,
* the memory cache (`_cache_mem`), the causal attention mask
  (`_create_mask`) and the relative shift (`rel_shift`) of the model,
* the two adaptive log-softmax implementations
  (`mask_adaptive_logsoftmax` / `mul_adaptive_logsoftmax`).

Tensors are modelled as functions `Nat → ℝ` (or lists); machine floats
are modelled as real numbers; the `(i, b)` = (time, batch) index pair of a
`[tgt_len, bsz]` tensor is flattened into a single position index, which
is faithful because every operation involved treats the two axes
pointwise or reduces over both jointly.
-/

namespace TXL

/-! ## BucketPlanner: `_nearest_to_eight` (data_utils_chinese.py, lines 108-110)

Python source:
```
def _nearest_to_eight(x):
    y = x - x % 8
    return y + 8 if x % 8 >= 4 else max(8, y)
```
`x` is a non-negative int (it comes from `math.ceil` of a non-negative
float), so we model it on `Nat`. -/

def nearestToEight (x : Nat) : Nat :=
  if x % 8 ≥ 4 then (x - x % 8) + 8 else max 8 (x - x % 8)

/-! ## `_cache_mem` (model.py, lines 431-439)

Python source:
```
def _cache_mem(curr_out, prev_mem, mem_len=None):
    if mem_len is None or prev_mem is None:
        new_mem = curr_out
    elif mem_len == 0:
        return prev_mem
    else:
        new_mem = tf.concat([prev_mem, curr_out], 0)[- mem_len:]
    return tf.stop_gradient(new_mem)
```
A memory tensor `[len, bsz, d_model]` is modelled as a list of rows of an
abstract type `α` (each row is one `[bsz, d_model]` slice).
`tf.stop_gradient` is the identity on values, so it does not appear.
Python's `xs[-m:]` with `m > 0` is the last `min m xs.length` elements,
i.e. `xs.drop (xs.length - m)`. -/

def cacheMem {α : Type} (currOut : List α) (prevMem : Option (List α))
    (memLen : Option Nat) : List α :=
  match memLen, prevMem with
  | none, _ => currOut
  | some _, none => currOut
  | some 0, some pm => pm
  | some (m + 1), some pm =>
      (pm ++ currOut).drop ((pm ++ currOut).length - (m + 1))

/-! ## PermutationEncoder: `_add_perm_feature` (data_utils_chinese.py, lines 232-249)

Python source of the inner loop, for one bucket `b` (state: the per-shard
slot counter `cnts[b]`, capacity `bin_sizes[b]`):
```
idx_tuple = []
for p in pos:
    if cnts[b] < bin_sizes[b]:
        idx_tuple.append([p, cnts[b]])
        cnts[b] += 1
    else:
        break
```
`addPermTuples pos cnt binSize` returns the emitted `(position, slot)`
tuples together with the final counter value. -/

def addPermTuples (pos : List Nat) (cnt binSize : Nat) :
    List (Nat × Nat) × Nat :=
  match pos with
  | [] => ([], cnt)
  | p :: rest =>
      if cnt < binSize then
        let r := addPermTuples rest (cnt + 1) binSize
        ((p, cnt) :: r.1, r.2)
      else
        ([], cnt)

/-! ## `create_ordered_tfrecords`: the serialization loop and its assert
(data_utils_chinese.py, lines 184-254)

Per example (one `(t, idx)` pair of the two nested loops) the relevant
control flow is:
```
if len(cutoffs) > 0 and use_tpu:
    assert len(cutoffs) - len(bin_sizes) == 2, ...
    ... (permutation features) ...
record_writer.write(example.SerializeToString())
```
A failing `assert` raises, so the function aborts; no further example is
processed and no record is written.  The model records, per run, how many
records were written and how many times the assert was evaluated.
Examples are abstracted to their index (the serialized payload is
irrelevant to the claim). -/

structure WriteState where
  written : List Nat
  checks : Nat
deriving DecidableEq, Repr

def writeLoop (cutoffs binSizes : List Nat) (useTpu : Bool) :
    List Nat → WriteState → WriteState × Bool
  | [], s => (s, true)
  | e :: rest, s =>
      if 0 < cutoffs.length ∧ useTpu = true then
        let s1 : WriteState := { s with checks := s.checks + 1 }
        if (cutoffs.length : Int) - (binSizes.length : Int) ≠ 2 then
          (s1, false)
        else
          writeLoop cutoffs binSizes useTpu rest
            { s1 with written := s1.written ++ [e] }
      else
        writeLoop cutoffs binSizes useTpu rest
          { s with written := s.written ++ [e] }

/-! ## `head_labels` (data_utils_chinese.py, lines 219-229)

Python source:
```
head_labels = np.copy(labels)
for b, (left, right) in enumerate(zip(cutoffs[1:-1], cutoffs[2:])):
    tgt_pos = np.where((labels >= left) * (labels < right))[0]
    head_labels[tgt_pos] = cutoffs[1] + b
```
Note `tgt_pos` is recomputed from the *original* `labels` on every
iteration, so each bucket's rewrite is conditioned on the original label,
not on the partially rewritten array.  One bucket iteration is
`applyBucket`: positions whose original label falls in `[left, right)`
are set to the value `v = cutoffs[1] + b`. -/

def applyBucket (v left right : Nat) (labels hl : List Nat) : List Nat :=
  List.zipWith (fun l h => if left ≤ l ∧ l < right then v else h) labels hl

def headLabelsOf (cutoffs labels : List Nat) : List Nat :=
  (((cutoffs.drop 1).dropLast).zip (cutoffs.drop 2)).enum.foldl
    (fun hl be => applyBucket (cutoffs.getD 1 0 + be.1) be.2.1 be.2.2 labels hl)
    labels

/-- The bucket loop of `headLabelsOf` over an arbitrary enumerated
bucket list `bs` (entries `(b, (left, right))`), for reasoning by
induction; `headLabelsOf cutoffs labels` is definitionally
`foldBuckets (cutoffs.getD 1 0) labels bs labels` for the enumerated
zipped cutoff list. -/
def foldBuckets (c1 : Nat) (labels : List Nat)
    (bs : List (Nat × Nat × Nat)) (hl : List Nat) : List Nat :=
  bs.foldl (fun hl be => applyBucket (c1 + be.1) be.2.1 be.2.2 labels hl) hl

/-- The triple of features `(inputs, labels, head_labels)` serialized for
one example in bucketed TPU mode.  `inputs` and `labels` are stored as
they are; `head_labels` is computed from `labels` and `cutoffs` alone
(the Python block never writes to `inputs`). -/
def exampleFeatureTriple (cutoffs inputs labels : List Nat) :
    List Nat × List Nat × List Nat :=
  (inputs, labels, headLabelsOf cutoffs labels)

/-! ## `_create_mask` (model.py, lines 419-428)

Python source:
```
def _create_mask(qlen, mlen, same_length=False):
    attn_mask = tf.ones([qlen, qlen])
    mask_u = tf.matrix_band_part(attn_mask, 0, -1)
    mask_dia = tf.matrix_band_part(attn_mask, 0, 0)
    attn_mask_pad = tf.zeros([qlen, mlen])
    ret = tf.concat([attn_mask_pad, mask_u - mask_dia], 1)
    if same_length:
        mask_l = tf.matrix_band_part(attn_mask, -1, 0)
        ret = tf.concat([ret[:, :qlen] + mask_l - mask_dia, ret[:, qlen:]], 1)
    return ret
```
`matrix_band_part(ones, lo, hi)` keeps entry `(i, j)` iff
`(lo < 0 or i - j ≤ lo)` and `(hi < 0 or j - i ≤ hi)`; so `(0, -1)` is the
upper triangle `i ≤ j`, `(0, 0)` the diagonal, `(-1, 0)` the lower
triangle `j ≤ i`.  Entries are small exact integers, so float arithmetic
is modelled by `ℤ`.  The result is a `[qlen, qlen + mlen]` matrix,
modelled as a function of the two indices. -/

def createMask (qlen mlen : Nat) (sameLength : Bool) : Nat → Nat → ℤ :=
  let mask_u : Nat → Nat → ℤ := fun i j => if i ≤ j then 1 else 0
  let mask_dia : Nat → Nat → ℤ := fun i j => if i = j then 1 else 0
  let ret : Nat → Nat → ℤ := fun i j =>
    if j < mlen then 0 else mask_u i (j - mlen) - mask_dia i (j - mlen)
  if sameLength then
    let mask_l : Nat → Nat → ℤ := fun i j => if j ≤ i then 1 else 0
    fun i j => if j < qlen then ret i j + mask_l i j - mask_dia i j else ret i j
  else
    ret

/-! ## `rel_shift` (model.py, lines 33-41)

Python source:
```
def rel_shift(x):
    x_size = tf.shape(x)
    x = tf.pad(x, [[0, 0], [1, 0], [0, 0], [0, 0]])
    x = tf.reshape(x, [x_size[1] + 1, x_size[0], x_size[2], x_size[3]])
    x = tf.slice(x, [1, 0, 0, 0], [-1, -1, -1, -1])
    x = tf.reshape(x, x_size)
    return x
```
`x` has shape `[qlen, klen, bsz, n_head]`; the pad/reshape/slice/reshape
sequence only rearranges the first two axes, carrying the trailing
`[bsz, n_head]` slice of each entry along unchanged, so entries are
modelled as values of an abstract type `α` (with the designated `zero`
being the value padded in).  Reshapes are row-major flatten/unflatten on
the first two axes. -/

def relShift {α : Type} (q k : Nat) (zero : α) (x : Nat → Nat → α) :
    Nat → Nat → α :=
  -- pad [[0,0],[1,0],...]: one zero column at the front of axis 1
  let padded : Nat → Nat → α := fun i j => if j = 0 then zero else x i (j - 1)
  -- row-major reshape of the padded [q, k+1] block to [k+1, q]
  let reshaped : Nat → Nat → α := fun r c =>
    padded ((r * q + c) / (k + 1)) ((r * q + c) % (k + 1))
  -- slice [1, 0] .. [-1, -1]: drop the first row, giving [k, q]
  let sliced : Nat → Nat → α := fun r c => reshaped (r + 1) c
  -- row-major reshape of the sliced [k, q] block back to [q, k]
  fun i j => sliced ((i * k + j) / q) ((i * k + j) % q)

/-! ## The adaptive softmax: shared setting

Both `mask_adaptive_logsoftmax` (model.py, lines 235-313) and
`mul_adaptive_logsoftmax` (model.py, lines 316-416) consume:

* `hidden : [qlen, bsz, d_proj]`, `target : [qlen, bsz]` — the `(i, b)`
  index pair is flattened into one position index `p < N` (`N = qlen*bsz`);
  every operation below is pointwise in `(i, b)` or reduces over both
  jointly, so this is exact;
* `cutoffs` — the *interior* cutoffs (model.py convention);
  `cutoff_ends = [0] + cutoffs + [n_token]`;
* `params = [params_W, params_projs]` from the embedding lookup, plus the
  variables created inside the `adaptive_softmax` scope (biases,
  `cluster_W`, `cluster_b`, per-bucket untied `proj`).  TF reuses
  variables by scope name, so both implementations read the same
  parameter record.

Real-valued tensors are modelled over `ℝ`; a `[n, m]` matrix is a
function `Nat → Nat → ℝ` (out-of-range entries are irrelevant: every
contraction sums over an explicit `Finset.range`). -/

structure SoftmaxParams where
  nToken : Nat
  dEmbed : Nat
  dProj : Nat
  divVal : Nat
  /-- `params_W` as one `[n_token, d_embed]` table (the `div_val == 1` layout). -/
  wFlat : Nat → Nat → ℝ
  /-- `params_projs` in the `div_val == 1` layout (`proj_W`, or `None`). -/
  projFlat : Option (Nat → Nat → ℝ)
  /-- `params_W` as per-bucket tables `[r_idx - l_idx, cur_d_embed]` (the `div_val != 1` layout). -/
  wPer : Nat → Nat → Nat → ℝ
  /-- `params_projs` as per-bucket optional projections (the `div_val != 1` layout). -/
  projPer : Nat → Option (Nat → Nat → ℝ)
  /-- the per-bucket bias variable `b` of scope `cutoff_{i}`. -/
  bias : Nat → Nat → ℝ
  /-- `cluster_W : [len(cutoffs), d_embed]`. -/
  clusterW : Nat → Nat → ℝ
  /-- `cluster_b : [len(cutoffs)]`. -/
  clusterB : Nat → ℝ
  /-- the per-bucket untied `proj` variable of scope `cutoff_{i}`. -/
  freshProj : Nat → Nat → Nat → ℝ
  /-- `bias` of the `len(cutoffs) == 0` branch. -/
  softmaxB : Nat → ℝ
  tieProjs : Nat → Bool
  projSameDim : Bool

namespace SoftmaxParams

def cutoffEnds (P : SoftmaxParams) (cutoffs : List Nat) : List Nat :=
  0 :: (cutoffs ++ [P.nToken])

/-- `cutoff_ends[i]` (`l_idx` of bucket `i`). -/
def lI (P : SoftmaxParams) (cutoffs : List Nat) (i : Nat) : Nat :=
  (P.cutoffEnds cutoffs).getD i 0

/-- `cutoff_ends[i + 1]` (`r_idx` of bucket `i`). -/
def rI (P : SoftmaxParams) (cutoffs : List Nat) (i : Nat) : Nat :=
  (P.cutoffEnds cutoffs).getD (i + 1) 0

/-- `cur_d_embed = d_embed // (div_val ** i)`. -/
def curDEmbed (P : SoftmaxParams) (i : Nat) : Nat :=
  P.dEmbed / P.divVal ^ i

/-- `cur_W` of bucket `i`: `params_W[l_idx:r_idx]` when `div_val == 1`,
`params_W[i]` otherwise.  (Identical source lines in both
implementations: model.py 272-275 and 352-355.) -/
def curW (P : SoftmaxParams) (cutoffs : List Nat) (i : Nat) : Nat → Nat → ℝ :=
  if P.divVal = 1 then fun n => P.wFlat (P.lI cutoffs i + n) else P.wPer i

/-- `cur_proj` of bucket `i`.  (Identical source lines in both
implementations: model.py 278-288 and 358-368.) -/
def curProj (P : SoftmaxParams) (i : Nat) : Option (Nat → Nat → ℝ) :=
  if P.tieProjs i then
    if P.divVal = 1 then P.projFlat else P.projPer i
  else
    if (P.divVal = 1 ∨ ¬P.projSameDim) ∧ P.dProj = P.curDEmbed i then none
    else some (P.freshProj i)

end SoftmaxParams

/-- `_logit(x, W, b, proj)` applied to one hidden vector `x` (one
position of the 3-D einsum `'ibd,nd->ibn'`, or one row of the 2-D einsum
`'id,nd->in'` — the two branches compute the same per-vector value).
With a projection: `y = einsum('ibd,ed->ibe', x, proj)` contracting over
`d < dProj`, then `einsum('ibe,ne->ibn', y, W) + b` contracting over
`e < de` (`de = cur_d_embed`, the row length of `W`). -/
def logitAt (de dProj : Nat) (proj : Option (Nat → Nat → ℝ))
    (W : Nat → Nat → ℝ) (b : Nat → ℝ) (x : Nat → ℝ) (n : Nat) : ℝ :=
  match proj with
  | none => (∑ e ∈ Finset.range de, x e * W n e) + b n
  | some pr =>
      (∑ e ∈ Finset.range de,
        (∑ d ∈ Finset.range dProj, x d * pr e d) * W n e) + b n

/-- `tf.nn.sparse_softmax_cross_entropy_with_logits` on one logit vector
`z` of length `n` with label `y`, equal to minus the log-softmax of `z`
at `y`.  The same quantity appears in the masked implementation as
`-_gather_logprob(log_softmax(logits), y)`. -/
noncomputable def xent (n : Nat) (z : Nat → ℝ) (y : Nat) : ℝ :=
  Real.log (∑ j ∈ Finset.range n, Real.exp (z j)) - z y

namespace SoftmaxParams

/-- Number of rows of the head logit:
`(r_idx - l_idx) + len(cutoffs)` for bucket 0 (vocabulary head plus one
cluster row per tail bucket). -/
def headSize (P : SoftmaxParams) (cutoffs : List Nat) : Nat :=
  P.rI cutoffs 0 + cutoffs.length

/-- The head logit of one hidden vector: `_logit(hidden, cur_W, cur_b,
cur_proj)` for bucket 0, where `cur_W = concat([params_W[l0:r0],
cluster_W], 0)` and `cur_b = concat([b, cluster_b], 0)`
(model.py, lines 289-297 and 370-378). -/
def headLogit (P : SoftmaxParams) (cutoffs : List Nat) (x : Nat → ℝ)
    (n : Nat) : ℝ :=
  let c1 := P.rI cutoffs 0
  let W : Nat → Nat → ℝ := fun m =>
    if m < c1 then P.curW cutoffs 0 m else P.clusterW (m - c1)
  let b : Nat → ℝ := fun m => if m < c1 then P.bias 0 m else P.clusterB (m - c1)
  logitAt (P.curDEmbed 0) P.dProj (P.curProj 0) W b x n

/-- The tail-bucket logit of one hidden vector:
`_logit(·, cur_W, cur_b, cur_proj)` for bucket `i ≥ 1`. -/
def tailLogit (P : SoftmaxParams) (cutoffs : List Nat) (i : Nat)
    (x : Nat → ℝ) (n : Nat) : ℝ :=
  logitAt (P.curDEmbed i) P.dProj (P.curProj i) (P.curW cutoffs i)
    (P.bias i) x n

/-- The `len(cutoffs) == 0` branch: `_logit(hidden, params_W, softmax_b,
params_projs)` over the full vocabulary. -/
def fullLogit (P : SoftmaxParams) (x : Nat → ℝ) (n : Nat) : ℝ :=
  logitAt P.dEmbed P.dProj P.projFlat P.wFlat P.softmaxB x n

/-! ### `mask_adaptive_logsoftmax` (model.py, lines 235-313)

For `len(cutoffs) > 0` the function accumulates, bucket by bucket,
`nll += scatter_nd(mask_idx, -cur_logprob, shape)` where `mask` selects
the positions whose target lies in the bucket and `cur_logprob` is the
log-probability of those positions' targets; so the value of `nll` at
position `p` is the sum over buckets of that bucket's term at `p` (zero
for every bucket not containing `target p`):

* bucket 0: `-head_logprob[p][target p]`,
* bucket `i ≥ 1`:
  `-head_logprob[p][cutoff_ends[1] + i - 1] - tail_logprob[p][target p - l_idx]`,

with `-log_softmax(z)[y] = xent z y`. -/

noncomputable def maskNllAt (P : SoftmaxParams) (cutoffs : List Nat)
    (hidden : Nat → Nat → ℝ) (target : Nat → Nat) (p : Nat) : ℝ :=
  if cutoffs.isEmpty then
    xent P.nToken (P.fullLogit (hidden p)) (target p)
  else
    ∑ i ∈ Finset.range (cutoffs.length + 1),
      if P.lI cutoffs i ≤ target p ∧ target p < P.rI cutoffs i then
        (if i = 0 then
          xent (P.headSize cutoffs) (P.headLogit cutoffs (hidden p)) (target p)
        else
          xent (P.headSize cutoffs) (P.headLogit cutoffs (hidden p))
              (P.rI cutoffs 0 + i - 1)
            + xent (P.rI cutoffs i - P.lI cutoffs i)
                (P.tailLogit cutoffs i (hidden p))
                (target p - P.lI cutoffs i))
      else 0

/-- `mask_adaptive_logsoftmax` with `return_mean=True`:
`tf.reduce_mean(nll)` over the `N = qlen * bsz` positions. -/
noncomputable def maskAdaptiveLoss (P : SoftmaxParams) (cutoffs : List Nat)
    (N : Nat) (hidden : Nat → Nat → ℝ) (target : Nat → Nat) : ℝ :=
  (∑ p ∈ Finset.range N, P.maskNllAt cutoffs hidden target p) / N

end SoftmaxParams

/-- `tf.to_int32` applied to a float that is used as a label.  TF
truncates toward zero; every value cast in this code is an exact
non-negative integer (a routed target minus its bucket's `l_idx`, or `0`
for an all-padding slot), on which truncation and floor agree. -/
noncomputable def toInt32 (x : ℝ) : Nat := ⌊x⌋.toNat

namespace SoftmaxParams

/-! ### `mul_adaptive_logsoftmax` (model.py, lines 316-416)

For `len(cutoffs) > 0` (with `head_target` from the `head_labels`
feature, `perms[0] : [qlen, bsz]` the `tgt_mask` feature and
`perms[i] : [qlen, bsz, bin_size_i]` the permutation matrices,
`i = 1 .. len(cutoffs)`):

* bucket 0: `head_nll = xent(head_logit[p], head_target[p])`,
  `total_loss += Σ_p head_nll[p] * perms[0][p]`,
  `total_cnt += Σ_p perms[0][p]`;
* bucket `i ≥ 1`, per slot `k < bin_size_i`:
  `cur_head_nll[k] = Σ_p head_nll[p] * perms[i][p][k]`  (`'ib,ibk->k'`),
  `cur_hidden[k] = Σ_p hidden[p] * perms[i][p][k]`      (`'ibd,ibk->kd'`),
  `tail_target[k] = Σ_p (target[p] - l_idx) * perms[i][p][k]`,
  `tail_nll[k] = xent(tail_logit(cur_hidden[k]), to_int32(tail_target[k]))`,
  `mask[k] = Σ_p perms[i][p][k]`                        (`reduce_sum` over both axes),
  `total_loss += Σ_k (cur_head_nll[k] + tail_nll[k]) * mask[k]`,
  `total_cnt += Σ_k mask[k]`;
* result `nll = total_loss / total_cnt`.

`perm0` is `perms[0]` and `permT i` is `perms[i]` for `i ≥ 1`. -/

noncomputable def mulHeadNll (P : SoftmaxParams) (cutoffs : List Nat)
    (hidden : Nat → Nat → ℝ) (headTarget : Nat → Nat) (p : Nat) : ℝ :=
  xent (P.headSize cutoffs) (P.headLogit cutoffs (hidden p)) (headTarget p)

noncomputable def mulCurHidden (N : Nat) (hidden : Nat → Nat → ℝ)
    (permT : Nat → Nat → Nat → ℝ) (i k : Nat) : Nat → ℝ :=
  fun d => ∑ p ∈ Finset.range N, hidden p d * permT i p k

noncomputable def mulTailNll (P : SoftmaxParams) (cutoffs : List Nat)
    (N : Nat) (hidden : Nat → Nat → ℝ) (target : Nat → Nat)
    (permT : Nat → Nat → Nat → ℝ) (i k : Nat) : ℝ :=
  xent (P.rI cutoffs i - P.lI cutoffs i)
    (P.tailLogit cutoffs i (mulCurHidden N hidden permT i k))
    (toInt32 (∑ p ∈ Finset.range N,
      ((target p : ℝ) - (P.lI cutoffs i : ℝ)) * permT i p k))

/-- `mask[k] = tf.reduce_sum(perms[i], [0, 1])` at slot `k`. -/
noncomputable def mulMaskSum (N : Nat) (permT : Nat → Nat → Nat → ℝ)
    (i k : Nat) : ℝ :=
  ∑ p ∈ Finset.range N, permT i p k

/-- `sum_nll[k] = cur_head_nll[k] + tail_nll[k]` (model.py, line 407). -/
noncomputable def mulSumNll (P : SoftmaxParams) (cutoffs : List Nat)
    (N : Nat) (hidden : Nat → Nat → ℝ) (target headTarget : Nat → Nat)
    (permT : Nat → Nat → Nat → ℝ) (i k : Nat) : ℝ :=
  (∑ p ∈ Finset.range N,
      mulHeadNll P cutoffs hidden headTarget p * permT i p k)
    + mulTailNll P cutoffs N hidden target permT i k

noncomputable def mulBucketLoss (P : SoftmaxParams) (cutoffs : List Nat)
    (N : Nat) (hidden : Nat → Nat → ℝ) (target headTarget : Nat → Nat)
    (permT : Nat → Nat → Nat → ℝ) (binSize : Nat → Nat) (i : Nat) : ℝ :=
  ∑ k ∈ Finset.range (binSize i),
    mulSumNll P cutoffs N hidden target headTarget permT i k
      * mulMaskSum N permT i k

noncomputable def mulBucketCnt (N : Nat) (permT : Nat → Nat → Nat → ℝ)
    (binSize : Nat → Nat) (i : Nat) : ℝ :=
  ∑ k ∈ Finset.range (binSize i), mulMaskSum N permT i k

noncomputable def mulTotalLoss (P : SoftmaxParams) (cutoffs : List Nat)
    (N : Nat) (hidden : Nat → Nat → ℝ) (target headTarget : Nat → Nat)
    (perm0 : Nat → ℝ) (permT : Nat → Nat → Nat → ℝ)
    (binSize : Nat → Nat) : ℝ :=
  (∑ p ∈ Finset.range N, mulHeadNll P cutoffs hidden headTarget p * perm0 p)
    + ∑ b ∈ Finset.range cutoffs.length,
        mulBucketLoss P cutoffs N hidden target headTarget permT binSize (b + 1)

noncomputable def mulTotalCnt (cutoffs : List Nat) (N : Nat)
    (perm0 : Nat → ℝ) (permT : Nat → Nat → Nat → ℝ)
    (binSize : Nat → Nat) : ℝ :=
  (∑ p ∈ Finset.range N, perm0 p)
    + ∑ b ∈ Finset.range cutoffs.length,
        mulBucketCnt N permT binSize (b + 1)

noncomputable def mulAdaptiveLoss (P : SoftmaxParams) (cutoffs : List Nat)
    (N : Nat) (hidden : Nat → Nat → ℝ) (target headTarget : Nat → Nat)
    (perm0 : Nat → ℝ) (permT : Nat → Nat → Nat → ℝ)
    (binSize : Nat → Nat) : ℝ :=
  if cutoffs.isEmpty then
    (∑ p ∈ Finset.range N, xent P.nToken (P.fullLogit (hidden p)) (target p)) / N
  else
    mulTotalLoss P cutoffs N hidden target headTarget perm0 permT binSize
      / mulTotalCnt cutoffs N perm0 permT binSize

end SoftmaxParams

/-! ### Well-formed permutation input

The serialized permutation features (section 4.2 of the spec, produced by
`_add_perm_feature` and turned into matrices by `_process_perm_feature` /
`tf.sparse_to_dense`) give, for each tail bucket, a 0/1 matrix with at
most one `1` per position (its slot) and at most one `1` per slot (its
routed position); `tgt_mask` is the 0/1 indicator of head targets, and
`head_labels` replaces a tail target by its cluster id.  `PermOk`
captures this contract; `routed p = true` means position `p` was routed
into its bucket's permutation (not dropped by capacity truncation).
`bkt p` names the bucket containing `target p`, and `slot p` its slot. -/

/-- Position `p` carries a target of tail bucket `i` and was routed into
that bucket's permutation (not dropped by capacity truncation). -/
abbrev routedInto (P : SoftmaxParams) (cutoffs : List Nat)
    (target : Nat → Nat) (routed : Nat → Bool) (i p : Nat) : Prop :=
  (P.lI cutoffs i ≤ target p ∧ target p < P.rI cutoffs i) ∧ routed p = true

structure PermOk (P : SoftmaxParams) (cutoffs : List Nat) (N : Nat)
    (target headTarget : Nat → Nat) (perm0 : Nat → ℝ)
    (permT : Nat → Nat → Nat → ℝ) (binSize : Nat → Nat)
    (slot bkt : Nat → Nat) (routed : Nat → Bool) : Prop where
  cutoffs_ne : cutoffs ≠ []
  ends_mono : List.Chain' (· ≤ ·) (P.cutoffEnds cutoffs)
  bkt_le : ∀ p < N, bkt p ≤ cutoffs.length
  bkt_mem : ∀ p < N,
    P.lI cutoffs (bkt p) ≤ target p ∧ target p < P.rI cutoffs (bkt p)
  perm0_eq : ∀ p < N, perm0 p = if target p < P.rI cutoffs 0 then 1 else 0
  head_target_eq : ∀ p < N,
    headTarget p = if bkt p = 0 then target p else P.rI cutoffs 0 + bkt p - 1
  perm_eq : ∀ i, 1 ≤ i → i ≤ cutoffs.length → ∀ p < N, ∀ k < binSize i,
    permT i p k =
      if routedInto P cutoffs target routed i p ∧ slot p = k then 1 else 0
  slot_lt : ∀ p < N, 1 ≤ bkt p → routed p = true → slot p < binSize (bkt p)
  slot_inj : ∀ p < N, ∀ p' < N, bkt p = bkt p' → 1 ≤ bkt p →
    routed p = true → routed p' = true → slot p = slot p' → p = p'

/-! ### The spec-side permutation-mode loss (for the refinement claim)

Modelled from the spec: "cross-entropy is computed per bucket on the
gathered fixed-size batch, masked by an indicator of real-vs-padding
slots, and the final loss is `sum(masked losses) / sum(indicator)`".
The indicator of a real (non-padding) slot `k` of tail bucket `i` is
`1` iff some routed position of that bucket occupies `k`; for the head
bucket the slots are the positions themselves and the indicator is
`tgt_mask`. -/

noncomputable def specSlotIndicator (cutoffs : List Nat) (N : Nat)
    (target : Nat → Nat) (slot : Nat → Nat) (routed : Nat → Bool)
    (P : SoftmaxParams) (i k : Nat) : ℝ :=
  if ∃ p ∈ Finset.range N,
      routedInto P cutoffs target routed i p ∧ slot p = k then 1 else 0

noncomputable def specPermutationNum (P : SoftmaxParams) (cutoffs : List Nat)
    (N : Nat) (hidden : Nat → Nat → ℝ) (target headTarget : Nat → Nat)
    (perm0 : Nat → ℝ) (permT : Nat → Nat → Nat → ℝ)
    (binSize : Nat → Nat) (slot : Nat → Nat) (routed : Nat → Bool) : ℝ :=
  (∑ p ∈ Finset.range N,
      SoftmaxParams.mulHeadNll P cutoffs hidden headTarget p * perm0 p)
    + ∑ b ∈ Finset.range cutoffs.length,
        ∑ k ∈ Finset.range (binSize (b + 1)),
          SoftmaxParams.mulSumNll P cutoffs N hidden target headTarget permT
              (b + 1) k
            * specSlotIndicator cutoffs N target slot routed P (b + 1) k

noncomputable def specPermutationDen (P : SoftmaxParams) (cutoffs : List Nat)
    (N : Nat) (target : Nat → Nat) (perm0 : Nat → ℝ)
    (binSize : Nat → Nat) (slot : Nat → Nat) (routed : Nat → Bool) : ℝ :=
  (∑ p ∈ Finset.range N, perm0 p)
    + ∑ b ∈ Finset.range cutoffs.length,
        ∑ k ∈ Finset.range (binSize (b + 1)),
          specSlotIndicator cutoffs N target slot routed P (b + 1) k

/-- A minimal concrete parameter record (vocabulary of 2 tokens, all
weights zero, one-dimensional embeddings), used to evaluate the adaptive
softmax theorems on a concrete input.  Fields in order: `nToken`,
`dEmbed`, `dProj`, `divVal`, `wFlat`, `projFlat`, `wPer`, `projPer`,
`bias`, `clusterW`, `clusterB`, `freshProj`, `softmaxB`, `tieProjs`,
`projSameDim`. -/
noncomputable def wParams : SoftmaxParams :=
  ⟨2, 1, 1, 1, fun _ _ => 0, none, fun _ _ _ => 0, fun _ => none,
    fun _ _ => 0, fun _ _ => 0, fun _ => 0, fun _ _ _ => 0, fun _ => 0,
    fun _ => false, true⟩

/-! ## Helper lemmas -/

theorem addPermTuples_eq (pos : List Nat) (binSize : Nat) : ∀ cnt,
    addPermTuples pos cnt binSize
      = ((pos.take (binSize - cnt)).zip
          (List.range' cnt (min pos.length (binSize - cnt))),
         cnt + min pos.length (binSize - cnt)) := by
  induction pos with
  | nil => intro cnt; simp [addPermTuples]
  | cons p rest ih =>
      intro cnt
      by_cases h : cnt < binSize
      · have hk : binSize - cnt = (binSize - (cnt + 1)) + 1 := by omega
        have hmin : min (rest.length + 1) ((binSize - (cnt + 1)) + 1)
            = min rest.length (binSize - (cnt + 1)) + 1 := by omega
        simp only [addPermTuples, if_pos h, ih (cnt + 1), List.length_cons,
          hk, hmin, List.take_succ_cons, List.range'_succ, List.zip_cons_cons,
          Prod.mk.injEq, List.cons.injEq]
        exact ⟨trivial, by omega⟩
      · have hk : binSize - cnt = 0 := by omega
        simp [addPermTuples, if_neg h, hk]

theorem applyBucket_length (v left right : Nat) (labels hl : List Nat) :
    (applyBucket v left right labels hl).length
      = min labels.length hl.length :=
  List.length_zipWith _ _ _

theorem applyBucket_getElem (v left right : Nat) (labels hl : List Nat)
    (p l h : Nat) (hpl : labels[p]? = some l) (hph : hl[p]? = some h) :
    (applyBucket v left right labels hl)[p]?
      = some (if left ≤ l ∧ l < right then v else h) := by
  simp [applyBucket, List.getElem?_zipWith, hpl, hph]

theorem foldBuckets_length (c1 : Nat) (labels : List Nat)
    (bs : List (Nat × Nat × Nat)) : ∀ hl : List Nat,
    hl.length = labels.length →
    (foldBuckets c1 labels bs hl).length = labels.length := by
  induction bs with
  | nil => intro hl h; exact h
  | cons be rest ih =>
      intro hl h
      simp only [foldBuckets, List.foldl_cons]
      exact ih _ (by rw [applyBucket_length]; omega)

theorem foldBuckets_untouched (c1 : Nat) (labels : List Nat) (p l : Nat)
    (hpl : labels[p]? = some l) (bs : List (Nat × Nat × Nat)) :
    ∀ hl : List Nat, hl.length = labels.length →
    (∀ be ∈ bs, ¬ (be.2.1 ≤ l ∧ l < be.2.2)) →
    (foldBuckets c1 labels bs hl)[p]? = hl[p]? := by
  induction bs with
  | nil => intro hl _ _; rfl
  | cons be rest ih =>
      intro hl hlen hno
      have hp : p < labels.length := (List.getElem?_eq_some.mp hpl).1
      obtain ⟨h, hph⟩ : ∃ h, hl[p]? = some h :=
        ⟨hl.get ⟨p, by omega⟩, by
          rw [List.getElem?_eq_some]
          exact ⟨by omega, rfl⟩⟩
      simp only [foldBuckets, List.foldl_cons]
      rw [show (rest.foldl
            (fun hl be => applyBucket (c1 + be.1) be.2.1 be.2.2 labels hl)
            (applyBucket (c1 + be.1) be.2.1 be.2.2 labels hl))
          = foldBuckets c1 labels rest
              (applyBucket (c1 + be.1) be.2.1 be.2.2 labels hl) from rfl]
      rw [ih _ (by rw [applyBucket_length]; omega)
        (fun b hb => hno b (List.mem_cons_of_mem _ hb))]
      rw [applyBucket_getElem _ _ _ _ _ _ _ _ hpl hph, hph]
      rw [if_neg (hno be (List.mem_cons_self _ _))]

theorem foldBuckets_hit (c1 : Nat) (labels : List Nat) (p l : Nat)
    (hpl : labels[p]? = some l) (bs1 bs2 : List (Nat × Nat × Nat))
    (be : Nat × Nat × Nat) (hl : List Nat)
    (hlen : hl.length = labels.length)
    (hin1 : be.2.1 ≤ l) (hin2 : l < be.2.2)
    (hafter : ∀ be2 ∈ bs2, ¬ (be2.2.1 ≤ l ∧ l < be2.2.2)) :
    (foldBuckets c1 labels (bs1 ++ be :: bs2) hl)[p]? = some (c1 + be.1) := by
  have hp : p < labels.length := (List.getElem?_eq_some.mp hpl).1
  simp only [foldBuckets, List.foldl_append, List.foldl_cons]
  set hl1 := bs1.foldl
    (fun hl be => applyBucket (c1 + be.1) be.2.1 be.2.2 labels hl) hl with hhl1
  have hlen1 : hl1.length = labels.length :=
    foldBuckets_length c1 labels bs1 hl hlen
  have hph : hl1[p]? = some (hl1.get ⟨p, by omega⟩) := by
    rw [List.getElem?_eq_some]
    exact ⟨by omega, rfl⟩
  rw [show (bs2.foldl
        (fun hl be => applyBucket (c1 + be.1) be.2.1 be.2.2 labels hl)
        (applyBucket (c1 + be.1) be.2.1 be.2.2 labels hl1))
      = foldBuckets c1 labels bs2
          (applyBucket (c1 + be.1) be.2.1 be.2.2 labels hl1) from rfl]
  rw [foldBuckets_untouched c1 labels p l hpl bs2 _
    (by rw [applyBucket_length]; omega) hafter]
  rw [applyBucket_getElem _ _ _ _ _ _ _ _ hpl hph]
  rw [if_pos ⟨hin1, hin2⟩]

theorem bucketEntry (cutoffs : List Nat) (be : Nat × Nat × Nat)
    (hmem : be ∈ (((cutoffs.drop 1).dropLast).zip (cutoffs.drop 2)).enum) :
    cutoffs[be.1 + 1]? = some be.2.1
      ∧ cutoffs[be.1 + 2]? = some be.2.2 := by
  obtain ⟨n, hn⟩ := List.mem_iff_getElem?.mp hmem
  rw [List.getElem?_enum] at hn
  obtain ⟨z, hz, hbe⟩ := Option.map_eq_some'.mp hn
  obtain ⟨hz1, hz2⟩ := List.getElem?_zip_eq_some.mp hz
  rw [List.getElem?_dropLast] at hz1
  have hb1 : be.1 = n := by rw [← hbe]
  split at hz1
  · rw [List.getElem?_drop] at hz1
    rw [List.getElem?_drop] at hz2
    subst hbe
    constructor
    · simpa [Nat.add_comm] using hz1
    · simpa [Nat.add_comm] using hz2
  · exact absurd hz1 (by simp)

theorem chain_le (cutoffs : List Nat)
    (hchain : List.Chain' (· < ·) cutoffs) (a b va vb : Nat) (hab : a ≤ b)
    (ha : cutoffs[a]? = some va) (hb : cutoffs[b]? = some vb) : va ≤ vb := by
  obtain ⟨hal, hae⟩ := List.getElem?_eq_some.mp ha
  obtain ⟨hbl, hbe⟩ := List.getElem?_eq_some.mp hb
  rcases Nat.lt_or_ge a b with h | h
  · have hpw := List.chain'_iff_pairwise.mp hchain
    have := List.pairwise_iff_getElem.mp hpw a b hal hbl h
    omega
  · have : a = b := by omega
    subst this
    omega

/-! ## Claim theorems -/

/-- C6: the BucketPlanner's nearest-to-eight rounding always returns a
multiple of 8 that is at least 8; it rounds up to the next multiple of 8
when `x % 8 ≥ 4` and down (floored at 8) otherwise, and concretely
`round8 12 = 16`, `round8 8 = 8`, `round8 3 = 8`, `round8 20 = 24`. -/
theorem nearestToEight_round8 (x : Nat) :
    8 ∣ nearestToEight x ∧ 8 ≤ nearestToEight x ∧
    nearestToEight x
      = (if 4 ≤ x % 8 then 8 * (x / 8) + 8 else max 8 (8 * (x / 8))) ∧
    nearestToEight 12 = 16 ∧ nearestToEight 8 = 8 ∧
    nearestToEight 3 = 8 ∧ nearestToEight 20 = 24 := by
  refine ⟨?_, ?_, ?_, by decide, by decide, by decide, by decide⟩ <;>
    simp only [nearestToEight, ge_iff_le] <;> split_ifs <;> omega

/-- C2: for `mem_len > 0` the cached memory is the last `mem_len` rows of
`concat(prev_mem, curr_out)` (all rows when fewer are available);
concretely, `mem_len = 5`, empty previous memory and 7 new states yield
exactly the last 5 of the 7 states; and `mem_len = 0` returns the
previous memory unchanged even for non-empty current output. -/
theorem cacheMem_update {α : Type} (m : Nat) (pm curr : List α) (hm : 0 < m) :
    (cacheMem curr (some pm) (some m)
        = (pm ++ curr).drop ((pm ++ curr).length - m)
      ∧ (cacheMem curr (some pm) (some m)).length
          = min m (pm.length + curr.length))
    ∧ cacheMem curr (some pm) (some 0) = pm
    ∧ cacheMem ([0, 1, 2, 3, 4, 5, 6] : List Nat) (some []) (some 5)
        = [2, 3, 4, 5, 6]
    ∧ (cacheMem ([0, 1, 2, 3, 4, 5, 6] : List Nat) (some []) (some 5)).length
        = 5 := by
  obtain ⟨m', rfl⟩ : ∃ m', m = m' + 1 := ⟨m - 1, by omega⟩
  refine ⟨⟨rfl, ?_⟩, rfl, by decide, by decide⟩
  simp only [cacheMem, List.length_drop, List.length_append]
  omega

theorem cacheMem_update_witness :
    (0 : Nat) < 5
      ∧ cacheMem ([0, 1, 2, 3, 4, 5, 6] : List Nat) (some []) (some 5)
          = [2, 3, 4, 5, 6] :=
  ⟨by decide, ((cacheMem_update 5 [] [0, 1, 2, 3, 4, 5, 6] (by decide)).2.2).1⟩

/-- C9 (counterexample): with no previous memory (`prev_mem = None`),
`_cache_mem` returns the whole current output untruncated, so with
`mem_len = 1` and 3 new hidden states the resulting memory holds 3 > 1
states — the claimed bound fails on the very first segment. -/
theorem cacheMem_none_unbounded :
    cacheMem ([0, 1, 2] : List Nat) none (some 1) = [0, 1, 2]
      ∧ ¬ (cacheMem ([0, 1, 2] : List Nat) none (some 1)).length ≤ 1 := by
  decide

/-- C9 (amended): whenever a previous memory tensor is supplied and
`mem_len > 0`, the updated memory holds at most `mem_len` states; with no
previous memory (`None`) the update returns the entire current output. -/
theorem cacheMem_bounded {α : Type} (m : Nat) (pm curr : List α)
    (hm : 0 < m) :
    (cacheMem curr (some pm) (some m)).length ≤ m
      ∧ cacheMem curr none (some m) = curr := by
  obtain ⟨m', rfl⟩ : ∃ m', m = m' + 1 := ⟨m - 1, by omega⟩
  refine ⟨?_, rfl⟩
  simp only [cacheMem, List.length_drop, List.length_append]
  omega

theorem cacheMem_bounded_witness :
    (0 : Nat) < 2
      ∧ (cacheMem ([0, 1, 2] : List Nat) (some [9]) (some 2)).length ≤ 2 :=
  ⟨by decide, (cacheMem_bounded 2 [9] [0, 1, 2] (by decide)).1⟩

/-- C4: the permutation encoder emits, per bucket and example, the
positions in scan order paired with consecutive slots starting at the
current shard counter, stopping at capacity: the emitted list is
`zip (take (binSize - cnt) pos) (range' cnt ...)`, its length is
`min pos.length (binSize - cnt) ≤ binSize`, and every emitted slot is
`< binSize`; concretely with `bin_size = 8`, counter 0 and 10 matching
positions, exactly 8 tuples are emitted and the 2 excess positions occur
in no tuple. -/
theorem addPermTuples_capacity (pos : List Nat) (cnt binSize : Nat) :
    ((addPermTuples pos cnt binSize).1.length
        = min pos.length (binSize - cnt)
      ∧ (addPermTuples pos cnt binSize).1
          = (pos.take (binSize - cnt)).zip
              (List.range' cnt (min pos.length (binSize - cnt)))
      ∧ (addPermTuples pos cnt binSize).1.all
          (fun t => decide (t.2 < binSize)) = true
      ∧ (addPermTuples pos cnt binSize).1.length ≤ binSize)
    ∧ (addPermTuples [0, 1, 2, 3, 4, 5, 6, 7, 8, 9] 0 8).1
        = [(0, 0), (1, 1), (2, 2), (3, 3), (4, 4), (5, 5), (6, 6), (7, 7)]
    ∧ (addPermTuples [0, 1, 2, 3, 4, 5, 6, 7, 8, 9] 0 8).1.length = 8
    ∧ (addPermTuples [0, 1, 2, 3, 4, 5, 6, 7, 8, 9] 0 8).1.all
        (fun t => decide (¬ (t.1 = 8 ∨ t.1 = 9))) = true := by
  refine ⟨⟨?_, ?_, ?_, ?_⟩, by decide, by decide, by decide⟩
  · rw [addPermTuples_eq]
    simp only [List.length_zip, List.length_take, List.length_range']
    omega
  · rw [addPermTuples_eq]
  · rw [addPermTuples_eq]
    simp only [List.all_eq_true]
    intro t ht
    have h2 := (List.of_mem_zip ht).2
    rw [List.mem_range'_1] at h2
    simp only [decide_eq_true_eq]
    omega
  · rw [addPermTuples_eq]
    simp only [List.length_zip, List.length_take, List.length_range']
    omega

/-- C8: with `use_tpu` and non-empty cutoffs, a cutoffs/bin_sizes length
mismatch makes the serialization loop abort at the very first example:
no record is written and the assert is evaluated exactly once,
regardless of how many examples follow. -/
theorem writeLoop_failfast (cutoffs binSizes : List Nat)
    (examples : List Nat) (hcut : 0 < cutoffs.length)
    (hmis : (cutoffs.length : Int) - (binSizes.length : Int) ≠ 2)
    (hne : examples ≠ []) :
    writeLoop cutoffs binSizes true examples ⟨[], 0⟩
      = (⟨[], 1⟩, false) := by
  match examples, hne with
  | e :: rest, _ =>
    simp only [writeLoop, if_pos hmis]
    rw [if_pos (show 0 < cutoffs.length ∧ True from ⟨hcut, trivial⟩)]

theorem writeLoop_failfast_witness :
    0 < ([0, 10, 50] : List Nat).length
      ∧ (([0, 10, 50] : List Nat).length : Int) - (([] : List Nat).length : Int) ≠ 2
      ∧ writeLoop [0, 10, 50] [] true [0, 1, 2] ⟨[], 0⟩ = (⟨[], 1⟩, false) :=
  ⟨by decide, by decide,
    writeLoop_failfast [0, 10, 50] [] [0, 1, 2] (by decide) (by decide)
      (by decide)⟩

/-- C7: the attention mask with `same_length=False` marks entry `(i, j)`
attendable (0) iff `j` is a memory position (`j < mlen`) or a
current-segment position no later than `i` (`j - mlen ≤ i`), and masked
(1) iff `j - mlen > i`; with `same_length=True` the mask is banded:
entry `(i, j)` is attendable iff `i ≤ j ≤ mlen + i`. -/
theorem createMask_causal (qlen mlen i j : Nat)
    (hi : i < qlen) (_hj : j < qlen + mlen) :
    (createMask qlen mlen false i j = 0 ↔ (j < mlen ∨ j - mlen ≤ i))
    ∧ (createMask qlen mlen false i j = 1 ↔ mlen + i < j)
    ∧ (createMask qlen mlen true i j = 0 ↔ (i ≤ j ∧ j ≤ mlen + i))
    ∧ (createMask qlen mlen true i j = 1 ↔ ¬ (i ≤ j ∧ j ≤ mlen + i)) := by
  simp only [createMask, if_true, if_false, Bool.false_eq_true,
    Bool.true_eq_false]
  split_ifs <;> omega

/-- C10: `head_labels` is a function of `labels` and `cutoffs` alone; a
position whose label lies in the head bucket `[cutoffs[0], cutoffs[1])`
keeps its label unchanged, a position whose label lies in tail bucket `b`
(range `[cutoffs[b+1], cutoffs[b+2])`) is rewritten to `cutoffs[1] + b`,
and the `inputs` (and `labels`) features of the serialized example are
untouched by the substitution. -/
theorem headLabels_frame (cutoffs inputs labels : List Nat) (p l : Nat)
    (hchain : List.Chain' (· < ·) cutoffs)
    (hpl : labels[p]? = some l) :
    (∀ c0 c1v, cutoffs[0]? = some c0 → cutoffs[1]? = some c1v →
        c0 ≤ l → l < c1v → (headLabelsOf cutoffs labels)[p]? = some l)
    ∧ (∀ b left right c1v, cutoffs[1]? = some c1v →
        cutoffs[b + 1]? = some left → cutoffs[b + 2]? = some right →
        left ≤ l → l < right →
        (headLabelsOf cutoffs labels)[p]? = some (c1v + b))
    ∧ (exampleFeatureTriple cutoffs inputs labels).1 = inputs
    ∧ (exampleFeatureTriple cutoffs inputs labels).2.1 = labels
    ∧ (∀ inputs2 : List Nat,
        (exampleFeatureTriple cutoffs inputs2 labels).2.2
          = headLabelsOf cutoffs labels) := by
  have hfold : headLabelsOf cutoffs labels
      = foldBuckets (cutoffs.getD 1 0) labels
          ((((cutoffs.drop 1).dropLast).zip (cutoffs.drop 2)).enum)
          labels := rfl
  set bs := (((cutoffs.drop 1).dropLast).zip (cutoffs.drop 2)).enum with hbs
  refine ⟨?_, ?_, rfl, rfl, fun _ => rfl⟩
  · intro c0 c1v h0 h1 hc0 hc1
    rw [hfold, foldBuckets_untouched _ _ p l hpl bs labels rfl, hpl]
    intro be hbe
    obtain ⟨hL, _hR⟩ := bucketEntry cutoffs be hbe
    have : c1v ≤ be.2.1 :=
      chain_le cutoffs hchain 1 (be.1 + 1) c1v be.2.1 (by omega) h1 hL
    omega
  · intro b left right c1v h1 hbL hbR hinL hinR
    have hlen : b + 2 < cutoffs.length := (List.getElem?_eq_some.mp hbR).1
    have hz1 : ((cutoffs.drop 1).dropLast)[b]? = some left := by
      rw [List.getElem?_dropLast,
        if_pos (by simp only [List.length_drop]; omega), List.getElem?_drop]
      rw [Nat.add_comm] at hbL
      exact hbL
    have hz2 : (cutoffs.drop 2)[b]? = some right := by
      rw [List.getElem?_drop]
      rw [Nat.add_comm] at hbR
      exact hbR
    have hzip : (((cutoffs.drop 1).dropLast).zip (cutoffs.drop 2))[b]?
        = some (left, right) := List.getElem?_zip_eq_some.mpr ⟨hz1, hz2⟩
    have henum : bs[b]? = some (b, (left, right)) := by
      rw [hbs, List.getElem?_enum, hzip]
      rfl
    obtain ⟨hblen, hbget⟩ := List.getElem?_eq_some.mp henum
    have hsplit : bs = bs.take b ++ (b, (left, right)) :: bs.drop (b + 1) := by
      conv_lhs => rw [← List.take_append_drop b bs]
      rw [List.drop_eq_getElem_cons hblen, hbget]
    have hafter : ∀ be2 ∈ bs.drop (b + 1),
        ¬ (be2.2.1 ≤ l ∧ l < be2.2.2) := by
      intro be2 hbe2
      obtain ⟨m, hm⟩ := List.mem_iff_getElem?.mp hbe2
      rw [List.getElem?_drop, hbs, List.getElem?_enum] at hm
      obtain ⟨z, hz, hbe2eq⟩ := Option.map_eq_some'.mp hm
      have hidx : be2.1 = b + 1 + m := by rw [← hbe2eq]
      obtain ⟨hL2, _⟩ := bucketEntry cutoffs be2 (List.mem_of_mem_drop hbe2)
      have : right ≤ be2.2.1 := chain_le cutoffs hchain (b + 2) (be2.1 + 1)
        right be2.2.1 (by omega) hbR hL2
      omega
    have hres := foldBuckets_hit (cutoffs.getD 1 0) labels p l hpl
      (bs.take b) (bs.drop (b + 1)) (b, (left, right)) labels rfl
      hinL hinR hafter
    rw [hfold, hsplit, hres]
    have : cutoffs.getD 1 0 = c1v := by
      rw [List.getD_eq_getElem?_getD, h1]
      rfl
    rw [this]

theorem headLabels_frame_witness :
    List.Chain' (· < ·) ([0, 2, 4] : List Nat)
      ∧ (([1, 3] : List Nat)[1]? = some 3)
      ∧ (([0, 2, 4] : List Nat)[1]? = some 2)
      ∧ (([0, 2, 4] : List Nat)[0 + 1]? = some 2)
      ∧ (([0, 2, 4] : List Nat)[0 + 2]? = some 4)
      ∧ (headLabelsOf [0, 2, 4] [1, 3])[1]? = some (2 + 0) :=
  ⟨by simp [List.chain'_cons], by decide, by decide, by decide, by decide,
    (headLabels_frame [0, 2, 4] [] [1, 3] 1 3 (by simp [List.chain'_cons])
        (by decide)).2.1
      0 2 4 2 (by decide) (by decide) (by decide) (by decide) (by decide)⟩

theorem createMask_causal_witness :
    (1 : Nat) < 2 ∧ (2 : Nat) < 2 + 1
      ∧ (createMask 2 1 false 1 2 = 0 ↔ (2 < 1 ∨ 2 - 1 ≤ 1)) :=
  ⟨by decide, by decide, (createMask_causal 2 1 1 2 (by decide) (by decide)).1⟩

/-- Closed form of `rel_shift`: with `d = j + q - i - 1`, the output at
`(i, j)` is the input at `(i, d)` when `d < k`, the padded zero when
`d = k`, and the input at `(i + 1, d - k - 1)` when `d > k`. -/
theorem relShift_closed {α : Type} (q k : Nat) (zero : α)
    (x : Nat → Nat → α) (i j : Nat) (hi : i < q) (hj : j < k)
    (hqk : q ≤ k) :
    relShift q k zero x i j =
      if j + q - i - 1 < k then x i (j + q - i - 1)
      else if j + q - i - 1 = k then zero
      else x (i + 1) (j + q - i - 1 - k - 1) := by
  have hq : 0 < q := by omega
  have hflat : ((i * k + j) / q + 1) * q + (i * k + j) % q
      = i * k + j + q := by
    rw [Nat.add_mul, one_mul, Nat.mul_comm ((i * k + j) / q) q]
    have := Nat.div_add_mod (i * k + j) q
    omega
  simp only [relShift]
  rw [hflat]
  set d := j + q - i - 1 with hd
  have hM : i * k + j + q = (k + 1) * i + (d + 1) := by
    have h1 : (k + 1) * i = k * i + i := by ring
    have h2 : i * k = k * i := Nat.mul_comm i k
    omega
  rw [hM]
  by_cases h1 : d < k
  · have hdiv : ((k + 1) * i + (d + 1)) / (k + 1) = i := by
      rw [Nat.mul_add_div (by omega)]
      have h0 : (d + 1) / (k + 1) = 0 := Nat.div_eq_of_lt (by omega)
      omega
    have hmod : ((k + 1) * i + (d + 1)) % (k + 1) = d + 1 := by
      rw [Nat.mul_add_mod]
      exact Nat.mod_eq_of_lt (by omega)
    rw [hdiv, hmod, if_pos h1, if_neg (by omega)]
    simp
  · by_cases h2 : d = k
    · have hdiv : ((k + 1) * i + (d + 1)) / (k + 1) = i + 1 := by
        rw [Nat.mul_add_div (by omega)]
        rw [h2]
        have : (k + 1) / (k + 1) = 1 := Nat.div_self (by omega)
        omega
      have hmod : ((k + 1) * i + (d + 1)) % (k + 1) = 0 := by
        rw [Nat.mul_add_mod, h2]
        simp
      rw [hdiv, hmod, if_neg h1, if_pos h2]
      simp
    · have hrep : (k + 1) * i + (d + 1) = (k + 1) * (i + 1) + (d - k) := by
        have : (k + 1) * (i + 1) = (k + 1) * i + (k + 1) := by ring
        omega
      have hdiv : ((k + 1) * i + (d + 1)) / (k + 1) = i + 1 := by
        rw [hrep, Nat.mul_add_div (by omega)]
        have : (d - k) / (k + 1) = 0 := Nat.div_eq_of_lt (by omega)
        omega
      have hmod : ((k + 1) * i + (d + 1)) % (k + 1) = d - k := by
        rw [hrep, Nat.mul_add_mod]
        exact Nat.mod_eq_of_lt (by omega)
      rw [hdiv, hmod, if_neg h1, if_neg h2, if_neg (by omega)]

/-- C3: applied to a position-term matrix computed against the
position-embedding table indexed from `klen - 1` down to `0` (row `j`
holds the embedding of position value `k - 1 - j`), `rel_shift` yields a
matrix whose entry at `(i, j)` depends on the offset `i - j` alone: any
two in-range index pairs with equal `i - j` carry equal shifted position
terms, and on the causally valid region the entry at `(i, j)` is the
embedding of relative distance `(k - q) + i - j` (that is,
`mlen + i - j`). -/
theorem relShift_relative {α : Type} (q k : Nat) (zero : α) (g : Nat → α)
    (i1 j1 i2 j2 : Nat) (h1i : i1 < q) (h1j : j1 < k)
    (h2i : i2 < q) (h2j : j2 < k) (hqk : q ≤ k)
    (hoff : (i1 : ℤ) - (j1 : ℤ) = (i2 : ℤ) - (j2 : ℤ)) :
    relShift q k zero (fun _ j => g (k - 1 - j)) i1 j1
      = relShift q k zero (fun _ j => g (k - 1 - j)) i2 j2
    ∧ (j1 ≤ (k - q) + i1 →
        relShift q k zero (fun _ j => g (k - 1 - j)) i1 j1
          = g ((k - q) + i1 - j1)) := by
  have e1 := relShift_closed q k zero (fun _ j => g (k - 1 - j)) i1 j1 h1i h1j hqk
  have e2 := relShift_closed q k zero (fun _ j => g (k - 1 - j)) i2 j2 h2i h2j hqk
  have hd : j2 + q - i2 - 1 = j1 + q - i1 - 1 := by omega
  constructor
  · rw [e1, e2, hd]
  · intro hle
    have hlt : j1 + q - i1 - 1 < k := by omega
    rw [e1, if_pos hlt]
    show g (k - 1 - (j1 + q - i1 - 1)) = g ((k - q) + i1 - j1)
    congr 1
    omega

theorem relShift_relative_witness :
    (1 : Nat) < 2 ∧ (1 : Nat) < 3 ∧ (0 : Nat) < 2 ∧ (0 : Nat) < 3
      ∧ (2 : Nat) ≤ 3 ∧ ((1 : ℤ) - (1 : ℤ) = (0 : ℤ) - (0 : ℤ))
      ∧ relShift 2 3 (0 : Nat) (fun _ j => (fun v => v + 10) (3 - 1 - j)) 1 1
          = relShift 2 3 (0 : Nat) (fun _ j => (fun v => v + 10) (3 - 1 - j)) 0 0 :=
  ⟨by decide, by decide, by decide, by decide, by decide, by decide,
    (relShift_relative 2 3 0 (fun v => v + 10) 1 1 0 0 (by decide) (by decide)
      (by decide) (by decide) (by decide) (by decide)).1⟩

section Adaptive

open SoftmaxParams

variable {P : SoftmaxParams} {cutoffs : List Nat} {N : Nat}
  {target headTarget : Nat → Nat} {perm0 : Nat → ℝ}
  {permT : Nat → Nat → Nat → ℝ} {binSize : Nat → Nat}
  {slot bkt : Nat → Nat} {routed : Nat → Bool} {hidden : Nat → Nat → ℝ}

theorem toInt32_natCast (n : Nat) : toInt32 (n : ℝ) = n := by
  unfold toInt32
  rw [Int.floor_natCast]
  exact Int.toNat_natCast n

theorem endsMono (h : List.Chain' (· ≤ ·) (P.cutoffEnds cutoffs))
    (a b : Nat) (hab : a ≤ b) (hb : b < cutoffs.length + 2) :
    (P.cutoffEnds cutoffs).getD a 0 ≤ (P.cutoffEnds cutoffs).getD b 0 := by
  have hlen : (P.cutoffEnds cutoffs).length = cutoffs.length + 2 := by
    simp [SoftmaxParams.cutoffEnds]
  have hb2 : b < (P.cutoffEnds cutoffs).length := by omega
  have ha2 : a < (P.cutoffEnds cutoffs).length := by omega
  rw [List.getD_eq_getElem _ _ ha2, List.getD_eq_getElem _ _ hb2]
  rcases Nat.lt_or_ge a b with hlt | hge
  · exact List.pairwise_iff_getElem.mp (List.chain'_iff_pairwise.mp h)
      a b ha2 hb2 hlt
  · have hab2 : a = b := by omega
    subst hab2
    exact le_refl _

theorem bucket_unique
    (H : PermOk P cutoffs N target headTarget perm0 permT binSize slot bkt
      routed)
    (p i : Nat) (hp : p < N) (hi : i ≤ cutoffs.length)
    (hint : P.lI cutoffs i ≤ target p ∧ target p < P.rI cutoffs i) :
    bkt p = i := by
  have hm := H.bkt_mem p hp
  have hl := H.bkt_le p hp
  rcases Nat.lt_trichotomy (bkt p) i with hlt | he | hgt
  · have hmono : P.rI cutoffs (bkt p) ≤ P.lI cutoffs i :=
      endsMono H.ends_mono (bkt p + 1) i (by omega) (by omega)
    omega
  · exact he
  · have hmono : P.rI cutoffs i ≤ P.lI cutoffs (bkt p) :=
      endsMono H.ends_mono (i + 1) (bkt p) (by omega) (by omega)
    omega

theorem sum_mul_permT
    (H : PermOk P cutoffs N target headTarget perm0 permT binSize slot bkt
      routed)
    (f : Nat → ℝ) (i k p : Nat)
    (hi1 : 1 ≤ i) (hi2 : i ≤ cutoffs.length) (hk : k < binSize i)
    (hp : p < N) (hind : routedInto P cutoffs target routed i p)
    (hs : slot p = k) :
    (∑ q ∈ Finset.range N, f q * permT i q k) = f p := by
  have hbkt : bkt p = i := bucket_unique H p i hp hi2 hind.1
  have h0 : ∀ q ∈ Finset.range N, q ≠ p → f q * permT i q k = 0 := by
    intro q hq hne
    have hqN := Finset.mem_range.mp hq
    rw [H.perm_eq i hi1 hi2 q hqN k hk, if_neg ?_, mul_zero]
    rintro ⟨hindq, hsq⟩
    have hbq : bkt q = i := bucket_unique H q i hqN hi2 hindq.1
    exact hne (H.slot_inj q hqN p hp (by omega) (by omega) hindq.2 hind.2
      (by omega))
  rw [Finset.sum_eq_single_of_mem p (Finset.mem_range.mpr hp) h0,
    H.perm_eq i hi1 hi2 p hp k hk, if_pos ⟨hind, hs⟩, mul_one]

theorem maskSum_eq
    (H : PermOk P cutoffs N target headTarget perm0 permT binSize slot bkt
      routed)
    (i k : Nat) (hi1 : 1 ≤ i) (hi2 : i ≤ cutoffs.length)
    (hk : k < binSize i) :
    mulMaskSum N permT i k
      = ∑ p ∈ Finset.range N,
          (if routedInto P cutoffs target routed i p ∧ slot p = k
            then (1 : ℝ) else 0) :=
  Finset.sum_congr rfl fun p hp =>
    H.perm_eq i hi1 hi2 p (Finset.mem_range.mp hp) k hk

theorem mulCurHidden_eq
    (H : PermOk P cutoffs N target headTarget perm0 permT binSize slot bkt
      routed)
    (i p : Nat) (hi1 : 1 ≤ i) (hi2 : i ≤ cutoffs.length) (hp : p < N)
    (hind : routedInto P cutoffs target routed i p)
    (hk : slot p < binSize i) :
    mulCurHidden N hidden permT i (slot p) = hidden p := by
  funext d
  exact sum_mul_permT H (fun q => hidden q d) i (slot p) p hi1 hi2 hk hp
    hind rfl

theorem mulTailNll_eq
    (H : PermOk P cutoffs N target headTarget perm0 permT binSize slot bkt
      routed)
    (i p : Nat) (hi1 : 1 ≤ i) (hi2 : i ≤ cutoffs.length) (hp : p < N)
    (hind : routedInto P cutoffs target routed i p)
    (hk : slot p < binSize i) :
    mulTailNll P cutoffs N hidden target permT i (slot p)
      = xent (P.rI cutoffs i - P.lI cutoffs i)
          (P.tailLogit cutoffs i (hidden p))
          (target p - P.lI cutoffs i) := by
  unfold mulTailNll
  rw [mulCurHidden_eq H i p hi1 hi2 hp hind hk]
  rw [sum_mul_permT H (fun q => (target q : ℝ) - (P.lI cutoffs i : ℝ))
    i (slot p) p hi1 hi2 hk hp hind rfl]
  congr 1
  have hle : P.lI cutoffs i ≤ target p := hind.1.1
  rw [← Nat.cast_sub hle]
  exact toInt32_natCast _

theorem mulSumNll_eq
    (H : PermOk P cutoffs N target headTarget perm0 permT binSize slot bkt
      routed)
    (i p : Nat) (hi1 : 1 ≤ i) (hi2 : i ≤ cutoffs.length) (hp : p < N)
    (hind : routedInto P cutoffs target routed i p)
    (hk : slot p < binSize i) :
    mulSumNll P cutoffs N hidden target headTarget permT i (slot p)
      = mulHeadNll P cutoffs hidden headTarget p
          + xent (P.rI cutoffs i - P.lI cutoffs i)
              (P.tailLogit cutoffs i (hidden p))
              (target p - P.lI cutoffs i) := by
  unfold mulSumNll
  rw [sum_mul_permT H (mulHeadNll P cutoffs hidden headTarget) i (slot p) p
    hi1 hi2 hk hp hind rfl]
  rw [mulTailNll_eq H i p hi1 hi2 hp hind hk]

theorem bucketLoss_eq
    (H : PermOk P cutoffs N target headTarget perm0 permT binSize slot bkt
      routed)
    (b : Nat) (hb : b < cutoffs.length) :
    mulBucketLoss P cutoffs N hidden target headTarget permT binSize (b + 1)
      = ∑ p ∈ Finset.range N,
          if routedInto P cutoffs target routed (b + 1) p then
            mulHeadNll P cutoffs hidden headTarget p
              + xent (P.rI cutoffs (b + 1) - P.lI cutoffs (b + 1))
                  (P.tailLogit cutoffs (b + 1) (hidden p))
                  (target p - P.lI cutoffs (b + 1))
          else 0 := by
  have hi1 : 1 ≤ b + 1 := by omega
  have hi2 : b + 1 ≤ cutoffs.length := by omega
  unfold mulBucketLoss
  have h1 : ∀ k ∈ Finset.range (binSize (b + 1)),
      mulSumNll P cutoffs N hidden target headTarget permT (b + 1) k
          * mulMaskSum N permT (b + 1) k
        = ∑ p ∈ Finset.range N,
            mulSumNll P cutoffs N hidden target headTarget permT (b + 1) k
              * (if routedInto P cutoffs target routed (b + 1) p
                  ∧ slot p = k then (1 : ℝ) else 0) := by
    intro k hk
    rw [maskSum_eq H (b + 1) k hi1 hi2 (Finset.mem_range.mp hk),
      Finset.mul_sum]
  rw [Finset.sum_congr rfl h1, Finset.sum_comm]
  apply Finset.sum_congr rfl
  intro p hp
  have hpN := Finset.mem_range.mp hp
  by_cases hind : routedInto P cutoffs target routed (b + 1) p
  · rw [if_pos hind]
    have hbkt : bkt p = b + 1 := bucket_unique H p (b + 1) hpN hi2 hind.1
    have hsl : slot p < binSize (b + 1) := by
      have h := H.slot_lt p hpN (by omega) hind.2
      rwa [hbkt] at h
    have h2 : ∀ k ∈ Finset.range (binSize (b + 1)),
        mulSumNll P cutoffs N hidden target headTarget permT (b + 1) k
            * (if routedInto P cutoffs target routed (b + 1) p
                ∧ slot p = k then (1 : ℝ) else 0)
          = if slot p = k then
              mulSumNll P cutoffs N hidden target headTarget permT (b + 1) k
            else 0 := by
      intro k _
      by_cases hk : slot p = k
      · rw [if_pos ⟨hind, hk⟩, if_pos hk, mul_one]
      · rw [if_neg (fun hc => hk hc.2), if_neg hk, mul_zero]
    rw [Finset.sum_congr rfl h2,
      Finset.sum_ite_eq (Finset.range (binSize (b + 1))) (slot p) _,
      if_pos (Finset.mem_range.mpr hsl)]
    exact mulSumNll_eq H (b + 1) p hi1 hi2 hpN hind hsl
  · rw [if_neg hind]
    apply Finset.sum_eq_zero
    intro k _
    rw [if_neg (fun hc => hind hc.1), mul_zero]

theorem bucketCnt_eq
    (H : PermOk P cutoffs N target headTarget perm0 permT binSize slot bkt
      routed)
    (b : Nat) (hb : b < cutoffs.length) :
    mulBucketCnt N permT binSize (b + 1)
      = ∑ p ∈ Finset.range N,
          (if routedInto P cutoffs target routed (b + 1) p
            then (1 : ℝ) else 0) := by
  have hi1 : 1 ≤ b + 1 := by omega
  have hi2 : b + 1 ≤ cutoffs.length := by omega
  unfold mulBucketCnt
  have h1 : ∀ k ∈ Finset.range (binSize (b + 1)),
      mulMaskSum N permT (b + 1) k
        = ∑ p ∈ Finset.range N,
            (if routedInto P cutoffs target routed (b + 1) p
                ∧ slot p = k then (1 : ℝ) else 0) := by
    intro k hk
    exact maskSum_eq H (b + 1) k hi1 hi2 (Finset.mem_range.mp hk)
  rw [Finset.sum_congr rfl h1, Finset.sum_comm]
  apply Finset.sum_congr rfl
  intro p hp
  have hpN := Finset.mem_range.mp hp
  by_cases hind : routedInto P cutoffs target routed (b + 1) p
  · rw [if_pos hind]
    have hbkt : bkt p = b + 1 := bucket_unique H p (b + 1) hpN hi2 hind.1
    have hsl : slot p < binSize (b + 1) := by
      have h := H.slot_lt p hpN (by omega) hind.2
      rwa [hbkt] at h
    have h2 : ∀ k ∈ Finset.range (binSize (b + 1)),
        (if routedInto P cutoffs target routed (b + 1) p
            ∧ slot p = k then (1 : ℝ) else 0)
          = if slot p = k then (1 : ℝ) else 0 := by
      intro k _
      by_cases hk : slot p = k
      · rw [if_pos ⟨hind, hk⟩, if_pos hk]
      · rw [if_neg (fun hc => hk hc.2), if_neg hk]
    rw [Finset.sum_congr rfl h2,
      Finset.sum_ite_eq (Finset.range (binSize (b + 1))) (slot p) _,
      if_pos (Finset.mem_range.mpr hsl)]
  · rw [if_neg hind]
    apply Finset.sum_eq_zero
    intro k _
    rw [if_neg (fun hc => hind hc.1)]

theorem headLoss_eq
    (H : PermOk P cutoffs N target headTarget perm0 permT binSize slot bkt
      routed) :
    (∑ p ∈ Finset.range N,
        mulHeadNll P cutoffs hidden headTarget p * perm0 p)
      = ∑ p ∈ Finset.range N,
          (if target p < P.rI cutoffs 0 then
            mulHeadNll P cutoffs hidden headTarget p else 0) := by
  apply Finset.sum_congr rfl
  intro p hp
  rw [H.perm0_eq p (Finset.mem_range.mp hp)]
  by_cases h : target p < P.rI cutoffs 0
  · rw [if_pos h, if_pos h, mul_one]
  · rw [if_neg h, if_neg h, mul_zero]

theorem headCnt_eq
    (H : PermOk P cutoffs N target headTarget perm0 permT binSize slot bkt
      routed) :
    (∑ p ∈ Finset.range N, perm0 p)
      = ∑ p ∈ Finset.range N,
          (if target p < P.rI cutoffs 0 then (1 : ℝ) else 0) :=
  Finset.sum_congr rfl fun p hp => H.perm0_eq p (Finset.mem_range.mp hp)

theorem maskNll_collapse
    (H : PermOk P cutoffs N target headTarget perm0 permT binSize slot bkt
      routed)
    (p : Nat) (hp : p < N) :
    maskNllAt P cutoffs hidden target p
      = if bkt p = 0 then
          xent (P.headSize cutoffs) (P.headLogit cutoffs (hidden p))
            (target p)
        else
          xent (P.headSize cutoffs) (P.headLogit cutoffs (hidden p))
              (P.rI cutoffs 0 + bkt p - 1)
            + xent (P.rI cutoffs (bkt p) - P.lI cutoffs (bkt p))
                (P.tailLogit cutoffs (bkt p) (hidden p))
                (target p - P.lI cutoffs (bkt p)) := by
  have hne : cutoffs.isEmpty = false := by
    cases cutoffs with
    | nil => exact absurd rfl H.cutoffs_ne
    | cons c cs => rfl
  unfold maskNllAt
  simp only [hne, Bool.false_eq_true, if_false]
  have hmem : bkt p ∈ Finset.range (cutoffs.length + 1) := by
    have := H.bkt_le p hp
    exact Finset.mem_range.mpr (by omega)
  have h0 : ∀ i ∈ Finset.range (cutoffs.length + 1), i ≠ bkt p →
      (if P.lI cutoffs i ≤ target p ∧ target p < P.rI cutoffs i then
        (if i = 0 then
          xent (P.headSize cutoffs) (P.headLogit cutoffs (hidden p))
            (target p)
        else
          xent (P.headSize cutoffs) (P.headLogit cutoffs (hidden p))
              (P.rI cutoffs 0 + i - 1)
            + xent (P.rI cutoffs i - P.lI cutoffs i)
                (P.tailLogit cutoffs i (hidden p))
                (target p - P.lI cutoffs i))
      else 0) = 0 := by
    intro i hi hne2
    rw [if_neg ?_]
    intro hint
    exact hne2 (bucket_unique H p i hp
      (by have := Finset.mem_range.mp hi; omega) hint).symm
  rw [Finset.sum_eq_single_of_mem (bkt p) hmem h0,
    if_pos (H.bkt_mem p hp)]

/-- C1: with the same hidden states, targets, parameters, cutoffs and
configuration, when the permutation features are well formed and no token
is dropped by bucket-capacity truncation (every position is routed), the
loss of the permutation-mode implementation (`mul_adaptive_logsoftmax`
with the corresponding perms and `head_target`) equals the loss of the
masked-mode implementation (`mask_adaptive_logsoftmax` with
`return_mean=True`). -/
theorem mul_mask_equiv (P : SoftmaxParams) (cutoffs : List Nat) (N : Nat)
    (hidden : Nat → Nat → ℝ) (target headTarget : Nat → Nat)
    (perm0 : Nat → ℝ) (permT : Nat → Nat → Nat → ℝ) (binSize : Nat → Nat)
    (slot bkt : Nat → Nat) (routed : Nat → Bool)
    (H : PermOk P cutoffs N target headTarget perm0 permT binSize slot bkt
      routed)
    (hAll : ∀ p < N, routed p = true) :
    mulAdaptiveLoss P cutoffs N hidden target headTarget perm0 permT binSize
      = maskAdaptiveLoss P cutoffs N hidden target := by
  have hne : cutoffs.isEmpty = false := by
    cases cutoffs with
    | nil => exact absurd rfl H.cutoffs_ne
    | cons c cs => rfl
  unfold mulAdaptiveLoss maskAdaptiveLoss
  simp only [hne, Bool.false_eq_true, if_false]
  have hnum : mulTotalLoss P cutoffs N hidden target headTarget perm0 permT
      binSize = ∑ p ∈ Finset.range N, maskNllAt P cutoffs hidden target p := by
    unfold mulTotalLoss
    rw [headLoss_eq H,
      Finset.sum_congr rfl
        (fun b hb => bucketLoss_eq H b (Finset.mem_range.mp hb)),
      Finset.sum_comm, ← Finset.sum_add_distrib]
    apply Finset.sum_congr rfl
    intro p hp
    have hpN := Finset.mem_range.mp hp
    rw [maskNll_collapse H p hpN]
    have hr : routed p = true := hAll p hpN
    have hmem := H.bkt_mem p hpN
    have hble := H.bkt_le p hpN
    by_cases h0 : bkt p = 0
    · have hhead : target p < P.rI cutoffs 0 := by
        rw [h0] at hmem
        exact hmem.2
      have hz : ∀ b ∈ Finset.range cutoffs.length,
          (if routedInto P cutoffs target routed (b + 1) p then
            mulHeadNll P cutoffs hidden headTarget p
              + xent (P.rI cutoffs (b + 1) - P.lI cutoffs (b + 1))
                  (P.tailLogit cutoffs (b + 1) (hidden p))
                  (target p - P.lI cutoffs (b + 1))
          else 0) = 0 := by
        intro b hb
        rw [if_neg]
        intro hind
        have := bucket_unique H p (b + 1) hpN
          (by have := Finset.mem_range.mp hb; omega) hind.1
        omega
      rw [if_pos hhead, if_pos h0, Finset.sum_eq_zero hz, add_zero]
      unfold mulHeadNll
      rw [H.head_target_eq p hpN, if_pos h0]
    · have hge : P.rI cutoffs 0 ≤ target p := by
        have hmono : P.rI cutoffs 0 ≤ P.lI cutoffs (bkt p) :=
          endsMono H.ends_mono 1 (bkt p) (by omega) (by omega)
        omega
      have hb0 : bkt p - 1 ∈ Finset.range cutoffs.length :=
        Finset.mem_range.mpr (by omega)
      have hsingle : ∀ b ∈ Finset.range cutoffs.length, b ≠ bkt p - 1 →
          (if routedInto P cutoffs target routed (b + 1) p then
            mulHeadNll P cutoffs hidden headTarget p
              + xent (P.rI cutoffs (b + 1) - P.lI cutoffs (b + 1))
                  (P.tailLogit cutoffs (b + 1) (hidden p))
                  (target p - P.lI cutoffs (b + 1))
          else 0) = 0 := by
        intro b hb hne2
        rw [if_neg]
        intro hind
        have := bucket_unique H p (b + 1) hpN
          (by have := Finset.mem_range.mp hb; omega) hind.1
        omega
      rw [if_neg (show ¬ target p < P.rI cutoffs 0 by omega), if_neg h0,
        zero_add, Finset.sum_eq_single_of_mem (bkt p - 1) hb0 hsingle,
        show bkt p - 1 + 1 = bkt p by omega, if_pos ⟨hmem, hr⟩]
      unfold mulHeadNll
      rw [H.head_target_eq p hpN, if_neg h0]
  have hden : mulTotalCnt cutoffs N perm0 permT binSize = (N : ℝ) := by
    unfold mulTotalCnt
    rw [headCnt_eq H,
      Finset.sum_congr rfl
        (fun b hb => bucketCnt_eq H b (Finset.mem_range.mp hb)),
      Finset.sum_comm, ← Finset.sum_add_distrib]
    have h1 : ∀ p ∈ Finset.range N,
        ((if target p < P.rI cutoffs 0 then (1 : ℝ) else 0)
          + ∑ b ∈ Finset.range cutoffs.length,
              (if routedInto P cutoffs target routed (b + 1) p
                then (1 : ℝ) else 0)) = 1 := by
      intro p hp
      have hpN := Finset.mem_range.mp hp
      have hr : routed p = true := hAll p hpN
      have hmem := H.bkt_mem p hpN
      have hble := H.bkt_le p hpN
      by_cases h0 : bkt p = 0
      · have hhead : target p < P.rI cutoffs 0 := by
          rw [h0] at hmem
          exact hmem.2
        have hz : ∀ b ∈ Finset.range cutoffs.length,
            (if routedInto P cutoffs target routed (b + 1) p
              then (1 : ℝ) else 0) = 0 := by
          intro b hb
          rw [if_neg]
          intro hind
          have := bucket_unique H p (b + 1) hpN
            (by have := Finset.mem_range.mp hb; omega) hind.1
          omega
        rw [if_pos hhead, Finset.sum_eq_zero hz, add_zero]
      · have hge : P.rI cutoffs 0 ≤ target p := by
          have hmono : P.rI cutoffs 0 ≤ P.lI cutoffs (bkt p) :=
            endsMono H.ends_mono 1 (bkt p) (by omega) (by omega)
          omega
        have hb0 : bkt p - 1 ∈ Finset.range cutoffs.length :=
          Finset.mem_range.mpr (by omega)
        have hsingle : ∀ b ∈ Finset.range cutoffs.length, b ≠ bkt p - 1 →
            (if routedInto P cutoffs target routed (b + 1) p
              then (1 : ℝ) else 0) = 0 := by
          intro b hb hne2
          rw [if_neg]
          intro hind
          have := bucket_unique H p (b + 1) hpN
            (by have := Finset.mem_range.mp hb; omega) hind.1
          omega
        rw [if_neg (show ¬ target p < P.rI cutoffs 0 by omega), zero_add,
          Finset.sum_eq_single_of_mem (bkt p - 1) hb0 hsingle,
          show bkt p - 1 + 1 = bkt p by omega, if_pos ⟨hmem, hr⟩]
    rw [Finset.sum_congr rfl h1]
    simp
  rw [hnum, hden]

theorem maskSum_indicator
    (H : PermOk P cutoffs N target headTarget perm0 permT binSize slot bkt
      routed)
    (i k : Nat) (hi1 : 1 ≤ i) (hi2 : i ≤ cutoffs.length)
    (hk : k < binSize i) :
    mulMaskSum N permT i k
      = specSlotIndicator cutoffs N target slot routed P i k := by
  unfold specSlotIndicator
  by_cases hocc : ∃ p ∈ Finset.range N,
      routedInto P cutoffs target routed i p ∧ slot p = k
  · obtain ⟨p, hp, hind, hs⟩ := hocc
    rw [if_pos ⟨p, hp, hind, hs⟩]
    have h := sum_mul_permT H (fun _ => (1 : ℝ)) i k p hi1 hi2 hk
      (Finset.mem_range.mp hp) hind hs
    simpa [mulMaskSum] using h
  · rw [if_neg hocc]
    apply Finset.sum_eq_zero
    intro q hq
    rw [H.perm_eq i hi1 hi2 q (Finset.mem_range.mp hq) k hk, if_neg]
    intro hc
    exact hocc ⟨q, hq, hc⟩

/-- C5: in permutation mode with non-empty cutoffs and well-formed
permutation features, the loss of `mul_adaptive_logsoftmax` equals the
sum over all buckets of the per-slot cross-entropy terms masked by the
real-vs-padding slot indicator, divided by the total sum of those
indicators; and that denominator counts exactly the tokens actually
routed into some bucket (head tokens plus routed tail tokens), so tokens
excluded by capacity truncation contribute to neither numerator nor
denominator. -/
theorem mul_spec_refine (P : SoftmaxParams) (cutoffs : List Nat) (N : Nat)
    (hidden : Nat → Nat → ℝ) (target headTarget : Nat → Nat)
    (perm0 : Nat → ℝ) (permT : Nat → Nat → Nat → ℝ) (binSize : Nat → Nat)
    (slot bkt : Nat → Nat) (routed : Nat → Bool)
    (H : PermOk P cutoffs N target headTarget perm0 permT binSize slot bkt
      routed) :
    mulAdaptiveLoss P cutoffs N hidden target headTarget perm0 permT binSize
      = specPermutationNum P cutoffs N hidden target headTarget perm0 permT
            binSize slot routed
          / specPermutationDen P cutoffs N target perm0 binSize slot routed
    ∧ specPermutationDen P cutoffs N target perm0 binSize slot routed
        = ∑ p ∈ Finset.range N,
            (if target p < P.rI cutoffs 0 ∨ (1 ≤ bkt p ∧ routed p = true)
              then (1 : ℝ) else 0) := by
  have hne : cutoffs.isEmpty = false := by
    cases cutoffs with
    | nil => exact absurd rfl H.cutoffs_ne
    | cons c cs => rfl
  have hnumeq : specPermutationNum P cutoffs N hidden target headTarget perm0
      permT binSize slot routed
      = mulTotalLoss P cutoffs N hidden target headTarget perm0 permT
          binSize := by
    unfold specPermutationNum mulTotalLoss mulBucketLoss
    congr 1
    apply Finset.sum_congr rfl
    intro b hb
    apply Finset.sum_congr rfl
    intro k hk
    rw [maskSum_indicator H (b + 1) k (by omega)
      (by have := Finset.mem_range.mp hb; omega) (Finset.mem_range.mp hk)]
  have hdeneq : specPermutationDen P cutoffs N target perm0 binSize slot
      routed = mulTotalCnt cutoffs N perm0 permT binSize := by
    unfold specPermutationDen mulTotalCnt mulBucketCnt
    congr 1
    apply Finset.sum_congr rfl
    intro b hb
    apply Finset.sum_congr rfl
    intro k hk
    rw [maskSum_indicator H (b + 1) k (by omega)
      (by have := Finset.mem_range.mp hb; omega) (Finset.mem_range.mp hk)]
  constructor
  · unfold mulAdaptiveLoss
    simp only [hne, Bool.false_eq_true, if_false]
    rw [hnumeq, hdeneq]
  · rw [hdeneq]
    unfold mulTotalCnt
    rw [headCnt_eq H,
      Finset.sum_congr rfl
        (fun b hb => bucketCnt_eq H b (Finset.mem_range.mp hb)),
      Finset.sum_comm, ← Finset.sum_add_distrib]
    apply Finset.sum_congr rfl
    intro p hp
    have hpN := Finset.mem_range.mp hp
    have hmem := H.bkt_mem p hpN
    have hble := H.bkt_le p hpN
    by_cases h0 : bkt p = 0
    · have hhead : target p < P.rI cutoffs 0 := by
        rw [h0] at hmem
        exact hmem.2
      have hz : ∀ b ∈ Finset.range cutoffs.length,
          (if routedInto P cutoffs target routed (b + 1) p
            then (1 : ℝ) else 0) = 0 := by
        intro b hb
        rw [if_neg]
        intro hind
        have := bucket_unique H p (b + 1) hpN
          (by have := Finset.mem_range.mp hb; omega) hind.1
        omega
      rw [if_pos hhead, if_pos (Or.inl hhead), Finset.sum_eq_zero hz,
        add_zero]
    · have hge : P.rI cutoffs 0 ≤ target p := by
        have hmono : P.rI cutoffs 0 ≤ P.lI cutoffs (bkt p) :=
          endsMono H.ends_mono 1 (bkt p) (by omega) (by omega)
        omega
      rw [if_neg (show ¬ target p < P.rI cutoffs 0 by omega), zero_add]
      by_cases hr : routed p = true
      · have hb0 : bkt p - 1 ∈ Finset.range cutoffs.length :=
          Finset.mem_range.mpr (by omega)
        have hsingle : ∀ b ∈ Finset.range cutoffs.length, b ≠ bkt p - 1 →
            (if routedInto P cutoffs target routed (b + 1) p
              then (1 : ℝ) else 0) = 0 := by
          intro b hb hne2
          rw [if_neg]
          intro hind
          have := bucket_unique H p (b + 1) hpN
            (by have := Finset.mem_range.mp hb; omega) hind.1
          omega
        rw [Finset.sum_eq_single_of_mem (bkt p - 1) hb0 hsingle,
          show bkt p - 1 + 1 = bkt p by omega, if_pos ⟨hmem, hr⟩,
          if_pos (Or.inr ⟨by omega, hr⟩)]
      · have hz : ∀ b ∈ Finset.range cutoffs.length,
            (if routedInto P cutoffs target routed (b + 1) p
              then (1 : ℝ) else 0) = 0 := by
          intro b hb
          rw [if_neg]
          intro hind
          exact hr hind.2
        rw [Finset.sum_eq_zero hz, if_neg]
        rintro (hl | hrr)
        · omega
        · exact hr hrr.2

theorem mul_mask_equiv_witness :
    mulAdaptiveLoss wParams [1] 2 (fun _ _ => 0) (fun p => p) (fun p => p)
        (fun p => if p = 0 then 1 else 0)
        (fun i p k => if p = 1 ∧ k = 0 ∧ i = 1 then 1 else 0)
        (fun _ => 1)
      = maskAdaptiveLoss wParams [1] 2 (fun _ _ => 0) (fun p => p) :=
  mul_mask_equiv wParams [1] 2 (fun _ _ => 0) (fun p => p) (fun p => p)
    (fun p => if p = 0 then 1 else 0)
    (fun i p k => if p = 1 ∧ k = 0 ∧ i = 1 then 1 else 0)
    (fun _ => 1) (fun _ => 0) (fun p => p) (fun _ => true)
    ⟨by decide,
      by simp [SoftmaxParams.cutoffEnds, wParams, List.chain'_cons],
      by decide,
      by decide,
      by intro p hp; interval_cases p <;> rfl,
      by intro p hp; interval_cases p <;> rfl,
      by
        intro i hi1 hi2 p hp k hk
        have hlen : ([1] : List Nat).length = 1 := rfl
        have hi : i = 1 := by omega
        subst hi
        interval_cases p <;> interval_cases k <;> rfl,
      by decide,
      by intro p hp p' hp' hbb h1 hr hr' hs; exact hbb⟩
    (by decide)

theorem mul_spec_refine_witness :
    mulAdaptiveLoss wParams [1] 2 (fun _ _ => 0) (fun p => p) (fun p => p)
        (fun p => if p = 0 then 1 else 0)
        (fun i p k => if p = 1 ∧ k = 0 ∧ i = 1 then 1 else 0)
        (fun _ => 1)
      = specPermutationNum wParams [1] 2 (fun _ _ => 0) (fun p => p)
            (fun p => p) (fun p => if p = 0 then 1 else 0)
            (fun i p k => if p = 1 ∧ k = 0 ∧ i = 1 then 1 else 0)
            (fun _ => 1) (fun _ => 0) (fun _ => true)
          / specPermutationDen wParams [1] 2 (fun p => p)
            (fun p => if p = 0 then 1 else 0) (fun _ => 1) (fun _ => 0)
            (fun _ => true)
    ∧ specPermutationDen wParams [1] 2 (fun p => p)
        (fun p => if p = 0 then 1 else 0) (fun _ => 1) (fun _ => 0)
        (fun _ => true)
      = ∑ p ∈ Finset.range 2,
          (if (fun p : Nat => p) p < wParams.rI [1] 0
              ∨ (1 ≤ (fun p : Nat => p) p ∧ (fun _ : Nat => true) p = true)
            then (1 : ℝ) else 0) :=
  mul_spec_refine wParams [1] 2 (fun _ _ => 0) (fun p => p) (fun p => p)
    (fun p => if p = 0 then 1 else 0)
    (fun i p k => if p = 1 ∧ k = 0 ∧ i = 1 then 1 else 0)
    (fun _ => 1) (fun _ => 0) (fun p => p) (fun _ => true)
    ⟨by decide,
      by simp [SoftmaxParams.cutoffEnds, wParams, List.chain'_cons],
      by decide,
      by decide,
      by intro p hp; interval_cases p <;> rfl,
      by intro p hp; interval_cases p <;> rfl,
      by
        intro i hi1 hi2 p hp k hk
        have hlen : ([1] : List Nat).length = 1 := rfl
        have hi : i = 1 := by omega
        subst hi
        interval_cases p <;> interval_cases k <;> rfl,
      by decide,
      by intro p hp p' hp' hbb h1 hr hr' hs; exact hbb⟩

end Adaptive

end TXL
